import Mathlib

/-!
Shallow embedding of the SoraYT_Studio scheduling / reconciliation engine
(`src/unnamed/part_000`, Go) and proofs about it.

Conventions:
* Instants are seconds of Asia/Taipei local time (fixed UTC+8, no DST),
  counted from an arbitrary local epoch; a calendar day is 86400 seconds.
  The Go zero `time.Time` is modelled by the value 0.
* Go strings are Lean `String`s; `strings.Contains` is `containsSubstr`.
* `VideoConfig.PublishAt` is a `string` in Go (`""` = unset, otherwise an
  RFC3339 instant); it is modelled as `Option Nat` (the parsed instant),
  with `Option.none` for `""`.  Formatting and re-parsing round-trip.
* File-system and network effects are passed in as explicit oracles
  (`fe : String → Bool` for `os.Stat`, `up : VideoConfig → Bool` for the
  YouTube upload call, response fields for the HTTP download).
-/

/-- A work item of the persisted store (`VideoConfig` in the source). -/
structure VideoConfig where
  uniqueID : String
  fileName : String
  title : String
  description : String
  tags : List String
  categoryID : String
  privacy : String
  uploaded : Bool
  publishAt : Option Nat
  isManual : Bool
  ignoreCalc : Bool
  downloadURL : String
deriving DecidableEq, Repr, Inhabited

/-- One entry of the Sora mailbox feed.  The source parses the same JSON
twice (`MailboxResponse` and the local `DetailedMailbox`); the fields of
both parses coexist here: `draftID` is `Object.Draft.ID`, `draftTaskID`
is the detailed parse's `Object.Draft.TaskID`. -/
structure MailboxItem where
  id : String
  kind : String
  displayStr : String
  draftID : String
  draftTaskID : String
  downloadableURL : String
deriving DecidableEq, Repr, Inhabited

/-- Does `pat` occur at the head of `l`?  (helper for `containsSubstr`). -/
def isPrefixList : List Char → List Char → Bool
  | [], _ => true
  | _ :: _, [] => false
  | a :: as, b :: bs => a == b && isPrefixList as bs

/-- Does `pat` occur inside `l`?  (helper for `containsSubstr`). -/
def isInsideList (pat : List Char) : List Char → Bool
  | [] => isPrefixList pat []
  | b :: bs => isPrefixList pat (b :: bs) || isInsideList pat bs

/-- Go `strings.Contains s sub`. -/
def containsSubstr (s sub : String) : Bool :=
  isInsideList sub.data s.data

/-- Go `normalizePrompt` (`part_000` l.1661): lower-case, strip everything
outside `[a-z0-9]`, keep the first 30 bytes (all kept bytes are ASCII, so
bytes = characters). -/
def normalizePrompt (s : String) : String :=
  let t := (s.data.map Char.toLower).filter (fun c => c.isLower || c.isDigit)
  String.mk (t.take 30)

/-- Body of the `S2_\d+_\d+_\d+` pattern after the literal `S2_`:
greedy digit runs separated by `_` (RE2 needs no backtracking here since
`_` is not a digit). -/
def s2Body (rest : List Char) : Option (List Char) :=
  let d1 := rest.takeWhile Char.isDigit
  if d1.isEmpty then none else
  match rest.drop d1.length with
  | '_' :: rest2 =>
    let d2 := rest2.takeWhile Char.isDigit
    if d2.isEmpty then none else
    match rest2.drop d2.length with
    | '_' :: rest3 =>
      let d3 := rest3.takeWhile Char.isDigit
      if d3.isEmpty then none else some (d1 ++ '_' :: d2 ++ '_' :: d3)
    | _ => none
  | _ => none

/-- Try to match `S2_\d+_\d+_\d+` at the head of the list. -/
def matchS2At : List Char → Option (List Char)
  | 'S' :: '2' :: '_' :: rest => (s2Body rest).map (fun b => 'S' :: '2' :: '_' :: b)
  | _ => none

/-- Leftmost match of `S2_\d+_\d+_\d+` (Go `idRegex.FindString`). -/
def findS2Aux : List Char → Option (List Char)
  | [] => none
  | c :: rest =>
    match matchS2At (c :: rest) with
    | some m => some m
    | none => findS2Aux rest

/-- Go `idRegex.FindString s` with `idRegex = (S2_\d+_\d+_\d+)`;
returns `""` when there is no match. -/
def findS2 (s : String) : String :=
  match findS2Aux s.data with
  | some m => String.mk m
  | none => ""

/-- Character class `[a-zA-Z0-9-_]` of the `files/([a-zA-Z0-9-_]+)/` regex. -/
def isUUIDChar (c : Char) : Bool :=
  c.isAlphanum || c == '-' || c == '_'

/-- Try to match `files/([a-zA-Z0-9-_]+)/` at the head, returning the group. -/
def matchFilesAt : List Char → Option (List Char)
  | 'f' :: 'i' :: 'l' :: 'e' :: 's' :: '/' :: rest =>
    let cls := rest.takeWhile isUUIDChar
    if cls.isEmpty then none else
    match rest.drop cls.length with
    | '/' :: _ => some cls
    | _ => none
  | _ => none

/-- Leftmost-match scan for `files/([a-zA-Z0-9-_]+)/`. -/
def findFileUUIDAux : List Char → Option (List Char)
  | [] => none
  | c :: rest =>
    match matchFilesAt (c :: rest) with
    | some m => some m
    | none => findFileUUIDAux rest

/-- Go `re.FindStringSubmatch(url)` for `files/([a-zA-Z0-9-_]+)/`:
the first capture group of the leftmost match, if any. -/
def findFileUUID (s : String) : Option String :=
  (findFileUUIDAux s.data).map String.mk

/-- One `hh:mm` schedule slot as seconds of day (`h*3600 + m*60`; the Go
code splits the string on `:` and `Atoi`s both parts). -/
def slotSec (h m : Nat) : Nat := h * 3600 + m * 60

/-- The default `youtubeConfig.ScheduleSlots` `["00:00","08:00","12:00","16:00"]`
parsed to seconds of day (env.json may override the list, so the functions
below take the parsed list as a parameter). -/
def defaultSlots : List Nat := [slotSec 0 0, slotSec 8 0, slotSec 12 0, slotSec 16 0]

/-- The scan loop of `calculateNextSlot`: first configured slot of the
`base` day strictly after `lt`. -/
def firstSlotAfter (base lt : Nat) : List Nat → Option Nat
  | [] => none
  | s :: rest => if lt < base + s then some (base + s) else firstSlotAfter base lt rest

/-- Go `calculateNextSlot` (`part_000` l.808): convert the baseline to
Asia/Taipei (our instants already are), use `now` when it is the zero
instant, truncate to midnight, scan the slots in order, and fall back to
the first slot of the next day. -/
def calculateNextSlot (slots : List Nat) (now t : Nat) : Nat :=
  let lt := if t = 0 then now else t
  let base := lt / 86400 * 86400
  match firstSlotAfter base lt slots with
  | some c => c
  | none => base + 86400 + slots.headD 0

/-- Modelled from the claim's words (spec §4.2): the earliest instant of
`t`'s calendar day whose time-of-day is a configured slot and which is
strictly after `t`; if there is none, the first configured slot of the
following calendar day. -/
def specNextSlot (slots : List Nat) (t : Nat) : Nat :=
  let base := t / 86400 * 86400
  let sameDay := (slots.map (fun s => base + s)).filter (fun c => t < c)
  match sameDay.min? with
  | some m => m
  | none => base + 86400 + slots.headD 0

/-- The per-item accumulation step of Go `extractLinksSmart`
(`part_000` l.970): a completed record matches when its display text
contains the extracted `S2_*` identifier of the target prompt, or when
either normalized key is a substring of the other; matching records with
a non-empty URL are collected in feed order. -/
def smartStep (targetID targetKey : String) (acc : List String) (it : MailboxItem) : List String :=
  if it.kind ≠ "sora_gen_complete" then acc
  else
    let m1 := targetID ≠ "" ∧ containsSubstr it.displayStr targetID = true
    let itemKey := normalizePrompt it.displayStr
    let m := m1 ∨ containsSubstr itemKey targetKey = true ∨ containsSubstr targetKey itemKey = true
    if m ∧ it.downloadableURL ≠ "" then acc ++ [it.downloadableURL] else acc

/-- Go `extractLinksSmart(jsonBody, targetPrompt)`; the feed is the parsed
`jsonBody`. -/
def extractLinksSmart (targetPrompt : String) (items : List MailboxItem) : List String :=
  items.foldl (smartStep (findS2 targetPrompt) (normalizePrompt targetPrompt)) []

/-- Go `extractFirstValidLink` (`part_000` l.1003): URL of the first
completed record with a non-empty URL. -/
def extractFirstValidLink (items : List MailboxItem) : List String :=
  match items.find? (fun it => it.kind == "sora_gen_complete" && it.downloadableURL != "") with
  | some it => [it.downloadableURL]
  | none => []

/-- Go `extractLinksByTaskID(jsonBody, targetTaskID)` (`part_000` l.930).
`bodyContains tid` models `strings.Contains(jsonBody, tid)` on the raw
JSON body the feed was parsed from.  The source's first loop returns the
smart-match result with an EMPTY prompt as soon as some completed item
has a non-empty `Object.Draft.ID` and the body contains the target; only
when that loop falls through does the second (re-parsed) loop compare
`Object.Draft.TaskID` exactly. -/
def extractLinksByTaskID (bodyContains : String → Bool) (items : List MailboxItem)
    (targetTaskID : String) : List String :=
  if items.any (fun it =>
      it.kind == "sora_gen_complete" && it.draftID != "" && bodyContains targetTaskID) then
    extractLinksSmart ("") items
  else
    match items.find? (fun it =>
        it.kind == "sora_gen_complete" && it.draftTaskID == targetTaskID
          && it.downloadableURL != "") with
    | some it => [it.downloadableURL]
    | none => []

/-- The link-resolution tail of Go `handleSoraPoll` (`part_000` l.890):
`extractLinksByTaskID`, then the first-valid fallback when it returned
nothing. -/
def pollResolve (bodyContains : String → Bool) (items : List MailboxItem)
    (targetTaskId : String) : List String :=
  let links := extractLinksByTaskID bodyContains items targetTaskId
  if links = [] then extractFirstValidLink items else links

/-- The match condition of the upsert loop in `handleSoraDownloadAndRename`
(`part_000` l.1155): correlation identifier (both non-empty and equal) or
equal `fileName`. -/
def matchCond (v nv : VideoConfig) : Bool :=
  (v.uniqueID != "" && nv.uniqueID != "" && v.uniqueID == nv.uniqueID)
    || v.fileName == nv.fileName

/-- The in-place merge of the upsert loop: keep the existing `downloadUrl`
when the incoming item supplies none, but let a non-empty request URL
override. -/
def mergeVideo (v nv : VideoConfig) (targetURL : String) : VideoConfig :=
  let nv1 := if nv.downloadURL = "" ∧ v.downloadURL ≠ "" then
    { nv with downloadURL := v.downloadURL } else nv
  if targetURL ≠ "" then { nv1 with downloadURL := targetURL } else nv1

/-- The upsert loop of `handleSoraDownloadAndRename`'s metadata-first
block: replace the first entry matching `matchCond` in place, otherwise
append the incoming item. -/
def upsertVideos : List VideoConfig → VideoConfig → String → List VideoConfig
  | [], nv, _ => [nv]
  | v :: rest, nv, url =>
    if matchCond v nv then mergeVideo v nv url :: rest
    else v :: upsertVideos rest nv url

/-- Go `downloadFileWithProgress(url, filename)` (`part_000` l.1618),
modelled on a destination with NO pre-existing file.  Inputs describe the
HTTP exchange: `doErr` = `client.Do` failed; `statusCode`, `contentType`,
`contentLength` (`-1` = not declared) from the response; `createOk` =
`os.Create` succeeded; `copyErr`/`copiedBytes` from `io.Copy`.  Returns
(error message if any, does a file exist at the destination on return);
`os.Remove` on the mismatch / copy-error paths is the `false` in those
branches. -/
def downloadFileWithProgress (doErr : Bool) (statusCode : Nat) (contentType : String)
    (contentLength : Int) (createOk : Bool) (copyErr : Option String)
    (copiedBytes : Nat) : Option String × Bool :=
  if doErr then (some ("request error"), false)
  else if statusCode ≠ 200 then (some ("HTTP error"), false)
  else if containsSubstr contentType ("xml") || containsSubstr contentType ("text") then
    (some ("Invalid Content-Type"), false)
  else if ¬ createOk then (some ("create error"), false)
  else
    match copyErr with
    | some e => (some ("下載期間發生錯誤: " ++ e), false)
    | none =>
      if 0 < contentLength ∧ (copiedBytes : Int) ≠ contentLength then
        (some ("檔案大小不匹配"), false)
      else (none, true)

/-- The download phase at the end of `handleSoraDownloadAndRename`
(`part_000` l.1236): skip when a file above 1024 bytes already exists,
otherwise (re-)download.  `file` is the destination state (`some size`
when present), `dlErr`/`dlFile` the outcome `downloadFileWithProgress`
would produce.  Returns (statusMsg, file state after, was the network
used). -/
def fetchPhase (dlErr : Option String) (dlFile : Option Nat) (targetURL : String)
    (file : Option Nat) : String × Option Nat × Bool :=
  if targetURL ≠ "" then
    match file with
    | some sz =>
      if 1024 < sz then ("檔案已存在，跳過下載", some sz, false)
      else
        match dlErr with
        | some e => ("下載失敗: " ++ e, dlFile, true)
        | none => ("ok", dlFile, true)
    | none =>
      match dlErr with
      | some e => ("下載失敗: " ++ e, dlFile, true)
      | none => ("ok", dlFile, true)
  else ("僅建立資料 (無下載連結)", file, false)

/-- Go `loadConfig` (`part_000` l.1495): both the `os.ReadFile` and the
`json.Unmarshal` errors are discarded.  `contents` is the store file
(`none` = missing), `parse` models `json.Unmarshal` into `[]VideoConfig`
(`none` = error, leaving the target slice nil). -/
def loadConfig (contents : Option String)
    (parse : String → Option (List VideoConfig)) : List VideoConfig × Option String :=
  ((parse (contents.getD (""))).getD [], none)

/-- Functional map update (Go `m[k] = v`, later writes shadow earlier). -/
def mapInsert (m : String → Option (Option Nat)) (k : String) (v : Option Nat) :
    String → Option (Option Nat) :=
  fun s => if s = k then some v else m s

/-- Set the `downloadURL` of the element at index `i` (the Go
`v.DownloadURL = url` through the `existingIDs` pointer into the slice). -/
def setURL : List VideoConfig → Nat → String → List VideoConfig
  | [], _, _ => []
  | v :: rest, 0, url => { v with downloadURL := url } :: rest
  | v :: rest, i + 1, url => v :: setURL rest i url

/-- State of the `handleSoraHistoryBatch` loop: the store slice, the
`localFileNames` set, the `existingIDs` map and the synced counter.
`idx id = some (some i)` is a pointer to store index `i`; `some none` is
a pointer to a loop-local `newVideo` copy that is no longer reachable
from the slice (updates through it are lost). -/
structure SyncState where
  videos : List VideoConfig
  known : List String
  idx : String → Option (Option Nat)
  synced : Nat

/-- `existingIDs` as built before the loop: `existingIDs[id] = &localVideos[i]`
for every entry with a non-empty `UniqueID`, later indices shadowing. -/
def initIdxAux : List VideoConfig → Nat → (String → Option (Option Nat)) →
    String → Option (Option Nat)
  | [], _, m => m
  | v :: rest, i, m =>
    initIdxAux rest (i + 1) (if v.uniqueID = "" then m else mapInsert m v.uniqueID (some i))

def initIdx (localVideos : List VideoConfig) : String → Option (Option Nat) :=
  initIdxAux localVideos 0 (fun _ => none)

/-- One feed item of the `handleSoraHistoryBatch` loop (`part_000` l.1016).
Completed items with a URL matching `files/([a-zA-Z0-9-_]+)/`:
* an `S2_*` id in the display text → update the URL of the entry holding
  that `UniqueID`, or append a new `<id>.mp4` entry (NOT checked against
  `localFileNames`);
* no id → append a `sora_<uuid>.mp4` entry unless that name is known.
The Go `title += " " + item.DisplayStr[:30]` byte slice is modelled as a
30-character prefix (identical on ASCII text). -/
def syncStep (st : SyncState) (item : MailboxItem) : SyncState :=
  if item.kind = "sora_gen_complete" ∧ item.downloadableURL ≠ "" then
    match findFileUUID item.downloadableURL with
    | none => st
    | some uuid =>
      let targetFileName := "sora_" ++ uuid ++ ".mp4"
      let foundID := findS2 item.displayStr
      if foundID ≠ "" then
        match st.idx foundID with
        | some (some i) => { st with videos := setURL st.videos i item.downloadableURL }
        | some none => st
        | none =>
          let title := "SYNC: " ++ foundID ++
            (if 30 < item.displayStr.length then " " ++ item.displayStr.take 30 else "")
          let nv : VideoConfig :=
            { uniqueID := foundID, fileName := foundID ++ ".mp4", title := title,
              description := "Synced from Sora Mailbox.", tags := [], categoryID := "24",
              privacy := "private", uploaded := false, publishAt := none,
              isManual := true, ignoreCalc := false,
              downloadURL := item.downloadableURL }
          { st with
            videos := st.videos ++ [nv], idx := mapInsert st.idx foundID none,
            synced := st.synced + 1 }
      else
        if targetFileName ∈ st.known then st
        else
          let nv : VideoConfig :=
            { uniqueID := "", fileName := targetFileName, title := "SYNC: " ++ uuid,
              description := "Synced from Sora Mailbox.", tags := [], categoryID := "24",
              privacy := "private", uploaded := false, publishAt := none,
              isManual := true, ignoreCalc := false,
              downloadURL := item.downloadableURL }
          { st with
            videos := st.videos ++ [nv], known := st.known ++ [targetFileName],
            synced := st.synced + 1 }
  else st

/-- Go `handleSoraHistoryBatch` (`part_000` l.1016): the store mutation of
one sync run over the freshly fetched feed; returns the saved store and
the synced counter. -/
def handleSoraHistoryBatch (items : List MailboxItem) (localVideos : List VideoConfig) :
    List VideoConfig × Nat :=
  let st0 : SyncState :=
    ⟨localVideos, localVideos.map (fun v => v.fileName), initIdx localVideos, 0⟩
  let st := items.foldl syncStep st0
  (st.videos, st.synced)

/-- The slot-assignment step inside the orchestrator loop (`part_000`
l.1426): manual items with their own publish time are barriers (advance
the clock past them when they count for the baseline); automatic items
get the running clock and advance it. -/
def stepOf (slots : List Nat) (now : Nat) (v : VideoConfig) (ct : Nat) : VideoConfig × Nat :=
  if v.isManual = true ∧ v.publishAt.isSome = true then
    match v.publishAt with
    | some tm =>
      if v.ignoreCalc = false ∧ ct < tm then (v, calculateNextSlot slots now tm) else (v, ct)
    | none => (v, ct)
  else ({ v with publishAt := some ct }, calculateNextSlot slots now ct)

/-- The item loop of Go `processScheduleAndUpload` (`part_000` l.1412).
`done` is the already-visited prefix, the saves list collects every
`saveConfig` snapshot (the whole store is rewritten each time).  On a
failed upload the item is NOT reverted and no save happens; on success
the item is marked uploaded and the full current store is saved. -/
def procLoop (slots : List Nat) (fe : String → Bool) (up : VideoConfig → Bool)
    (now limit : Nat) :
    List VideoConfig → List VideoConfig → Nat → Nat → List (List VideoConfig) →
    List VideoConfig × Nat × List (List VideoConfig)
  | done, [], _, p, saves => (done, p, saves)
  | done, v :: rest, ct, p, saves =>
    if limit ≤ p then (done ++ v :: rest, p, saves)
    else if v.uploaded = true then procLoop slots fe up now limit (done ++ [v]) rest ct p saves
    else if fe v.fileName = false then
      procLoop slots fe up now limit (done ++ [v]) rest ct p saves
    else
      let st := stepOf slots now v ct
      if up st.1 = true then
        let v2 := { st.1 with uploaded := true }
        procLoop slots fe up now limit (done ++ [v2]) rest st.2 (p + 1)
          (saves ++ [done ++ v2 :: rest])
      else procLoop slots fe up now limit (done ++ [st.1]) rest st.2 p saves

/-- The baseline computation at the head of Go `processScheduleAndUpload`
(`part_000` l.1376): baseline = max(hosting-service last scheduled
instant `extLast`, max of non-`ignoreCalc` local `publishAt`s); starting
clock from `calculateNextSlot`, or the operator date (its own midnight,
bumped when behind the baseline). -/
def initialClock (slots : List Nat) (now : Nat) (videos : List VideoConfig)
    (extLast : Nat) (startDate : Option Nat) : Nat :=
  let localMax := videos.foldl (fun acc v =>
    match v.publishAt with
    | some tm => if v.ignoreCalc = false ∧ acc < tm then tm else acc
    | none => acc) 0
  let lastTime := if extLast < localMax then localMax else extLast
  match startDate with
  | none => calculateNextSlot slots now lastTime
  | some d => if d * 86400 < lastTime then calculateNextSlot slots now lastTime else d * 86400

/-- Go `processScheduleAndUpload` (`part_000` l.1376): the baseline
computation followed by the item loop.  Returns (final store, processed
count, saveConfig snapshots in order). -/
def processScheduleAndUpload (slots : List Nat) (fe : String → Bool)
    (up : VideoConfig → Bool) (now : Nat) (videos : List VideoConfig) (extLast : Nat)
    (startDate : Option Nat) (limit : Nat) :
    List VideoConfig × Nat × List (List VideoConfig) :=
  procLoop slots fe up now limit [] videos (initialClock slots now videos extLast startDate) 0 []

/-- The store mutation of Go `handleManualSchedule` (`part_000` l.1314):
rewrite the FIRST entry whose `fileName` matches — publish time set,
`isManual = true`, `Uploaded = false` (unconditionally), `ignoreCalc`
from the checkbox.  Returns the updated list and the rewritten entry. -/
def manualUpdate : List VideoConfig → String → Nat → Bool →
    Option (List VideoConfig × VideoConfig)
  | [], _, _, _ => none
  | v :: rest, fname, pt, ub =>
    if v.fileName = fname then
      let v1 := { v with
        publishAt := some pt, isManual := true, uploaded := false,
        ignoreCalc := ub = false }
      some (v1 :: rest, v1)
    else
      match manualUpdate rest fname pt ub with
      | some (rest1, tv) => some (v :: rest1, tv)
      | none => none

/-- `targetVideo.Uploaded = true` through the pointer into the slice:
mark the first `fname` entry uploaded. -/
def markUploaded : List VideoConfig → String → List VideoConfig
  | [], _ => []
  | v :: rest, fname =>
    if v.fileName = fname then { v with uploaded := true } :: rest
    else v :: markUploaded rest fname

/-- Go `handleManualSchedule` (`part_000` l.1314): mutate + save, then
(file present and upload successful) mark uploaded and save again.
`none` models the 404 when no entry matches.  Returns the final store
and the saveConfig snapshots. -/
def handleManualSchedule (fe : String → Bool) (up : VideoConfig → Bool)
    (videos : List VideoConfig) (fname : String) (pubTime : Nat) (updateBaseline : Bool) :
    Option (List VideoConfig × List (List VideoConfig)) :=
  match manualUpdate videos fname pubTime updateBaseline with
  | none => none
  | some (vs1, tv) =>
    if fe tv.fileName = false then some (vs1, [vs1])
    else if up tv = false then some (vs1, [vs1])
    else
      let vs2 := markUploaded vs1 fname
      some (vs2, [vs1, vs2])

/-- Specification bundle for one `procLoop` run: output length, survival
of uploaded items (in the final store and in every new snapshot), saves
counting successes, monotone processed counter, and uploaded-only-after-
successful-upload. -/
def ProcOut (up : VideoConfig → Bool) (done rest : List VideoConfig) (p : Nat)
    (saves : List (List VideoConfig)) (fin : List VideoConfig) (p2 : Nat)
    (sv : List (List VideoConfig)) : Prop :=
  fin.length = done.length + rest.length ∧
  (∀ v, v ∈ done ++ rest → v.uploaded = true → v ∈ fin) ∧
  (∀ s ∈ sv, s ∈ saves ∨ (s.length = done.length + rest.length ∧
      ∀ v, v ∈ done ++ rest → v.uploaded = true → v ∈ s)) ∧
  sv.length + p = saves.length + p2 ∧
  p ≤ p2 ∧
  (∀ v, v ∈ fin → v.uploaded = true →
    v ∈ done ++ rest ∨ up { v with uploaded := false } = true)

/-- Invariant of the `handleSoraHistoryBatch` loop, relative to the file
names initially in the store: result names are duplicate-free; every
known name is an initial name or `sora_`-prefixed; every store name is
known or derived as `<id>.mp4` from a detached `existingIDs` entry; and
every detached entry's id is `S2_`-prefixed. -/
def SyncInv (initNames : List String) (st : SyncState) : Prop :=
  ((st.videos.map (fun v => v.fileName)).Nodup) ∧
  (∀ n ∈ st.known, n ∈ initNames ∨
    isPrefixList ['s', 'o', 'r', 'a', '_'] n.data = true) ∧
  (∀ n ∈ st.videos.map (fun v => v.fileName), n ∈ st.known ∨
    ∃ fid, st.idx fid = some none ∧ n = fid ++ ".mp4") ∧
  (∀ fid, st.idx fid = some none → isPrefixList ['S', '2', '_'] fid.data = true)

/-! ### Theorems -/

theorem foldl_min_self : ∀ (l : List Nat) (a : Nat), (∀ x ∈ l, a ≤ x) → l.foldl min a = a
  | [], _, _ => rfl
  | x :: l, a, h => by
    simp only [List.foldl_cons]
    rw [Nat.min_eq_left (h x (List.mem_cons_self x l))]
    exact foldl_min_self l a (fun y hy => h y (List.mem_cons_of_mem x hy))

theorem firstSlotAfter_eq_min? : ∀ (slots : List Nat), slots.Sorted (· ≤ ·) →
    ∀ (base lt : Nat),
    firstSlotAfter base lt slots
      = ((slots.map (fun s => base + s)).filter (fun c => lt < c)).min?
  | [], _, base, lt => by simp [firstSlotAfter]
  | s :: rest, hsort, base, lt => by
    obtain ⟨hle, hrest⟩ := List.sorted_cons.mp hsort
    by_cases h : lt < base + s
    · simp only [firstSlotAfter, if_pos h, List.map_cons, List.filter_cons,
        decide_eq_true_eq, h, if_pos, List.min?_cons']
      have : ∀ x ∈ (rest.map (fun s => base + s)).filter (fun c => decide (lt < c)),
          base + s ≤ x := by
        intro x hx
        obtain ⟨s1, hs1, rfl⟩ := List.mem_map.mp (List.mem_of_mem_filter hx)
        exact Nat.add_le_add_left (hle s1 hs1) base
      rw [foldl_min_self _ _ this]
    · simp only [firstSlotAfter, if_neg h, List.map_cons, List.filter_cons,
        decide_eq_true_eq, h, if_neg, if_false]
      exact firstSlotAfter_eq_min? rest hrest base lt

theorem firstSlotAfter_some : ∀ (slots : List Nat) (base lt c : Nat),
    firstSlotAfter base lt slots = some c → lt < c ∧ ∃ s ∈ slots, c = base + s
  | [], _, _, _, h => by simp [firstSlotAfter] at h
  | s :: rest, base, lt, c, h => by
    by_cases hc : lt < base + s
    · simp only [firstSlotAfter, if_pos hc, Option.some.injEq] at h
      exact ⟨h ▸ hc, s, List.mem_cons_self s rest, h.symm⟩
    · simp only [firstSlotAfter, if_neg hc] at h
      obtain ⟨h1, s1, hs1, h2⟩ := firstSlotAfter_some rest base lt c h
      exact ⟨h1, s1, List.mem_cons_of_mem s hs1, h2⟩

/-- C1: for every non-zero instant `t`, `calculateNextSlot` (with a
non-empty, ascending, valid slot configuration) returns exactly the
spec's value — the earliest slot instant of `t`'s calendar day strictly
after `t`, else the first slot of the next day — and the result is
strictly greater than `t` with a time-of-day equal to a configured
slot. -/
theorem calculateNextSlot_correct (slots : List Nat) (now t : Nat)
    (hne : slots ≠ []) (hsort : slots.Sorted (· ≤ ·))
    (hvalid : ∀ s ∈ slots, s < 86400) (ht : t ≠ 0) :
    calculateNextSlot slots now t = specNextSlot slots t ∧
    t < calculateNextSlot slots now t ∧
    (calculateNextSlot slots now t) % 86400 ∈ slots := by
  have hdm : 86400 * (t / 86400) + t % 86400 = t := Nat.div_add_mod t 86400
  have hmodlt : t % 86400 < 86400 := Nat.mod_lt t (by omega)
  cases h : firstSlotAfter (t / 86400 * 86400) t slots with
  | some c =>
    have e1 : calculateNextSlot slots now t = c := by
      simp only [calculateNextSlot, if_neg ht, h]
    have e2 : specNextSlot slots t = c := by
      simp only [specNextSlot]
      rw [← firstSlotAfter_eq_min? slots hsort (t / 86400 * 86400) t, h]
    obtain ⟨hlt, s, hs, rfl⟩ := firstSlotAfter_some slots _ _ _ h
    have hsv := hvalid s hs
    rw [e1, e2]
    refine ⟨rfl, hlt, ?_⟩
    have hms : (t / 86400 * 86400 + s) % 86400 = s := by omega
    rw [hms]; exact hs
  | none =>
    have e1 : calculateNextSlot slots now t
        = t / 86400 * 86400 + 86400 + slots.headD 0 := by
      simp only [calculateNextSlot, if_neg ht, h]
    have e2 : specNextSlot slots t = t / 86400 * 86400 + 86400 + slots.headD 0 := by
      simp only [specNextSlot]
      rw [← firstSlotAfter_eq_min? slots hsort (t / 86400 * 86400) t, h]
    obtain ⟨s0, rest, rfl⟩ : ∃ s0 rest, slots = s0 :: rest := by
      cases slots with
      | nil => exact absurd rfl hne
      | cons a l => exact ⟨a, l, rfl⟩
    have hs0 : s0 < 86400 := hvalid s0 (List.mem_cons_self s0 rest)
    rw [e1, e2]
    refine ⟨rfl, ?_, ?_⟩
    · simp only [List.headD_cons]; omega
    · simp only [List.headD_cons]
      have hms : (t / 86400 * 86400 + 86400 + s0) % 86400 = s0 := by omega
      rw [hms]; exact List.mem_cons_self s0 rest

/-- C1 witness: the spec's own scenario — slots 00:00/08:00/12:00/16:00
and a committed instant of 09:30 on day 1 (t = 120600 s) yields 12:00 of
the same day (129600 s). -/
theorem calculateNextSlot_correct_witness :
    calculateNextSlot defaultSlots 0 120600 = specNextSlot defaultSlots 120600 ∧
    120600 < calculateNextSlot defaultSlots 0 120600 ∧
    (calculateNextSlot defaultSlots 0 120600) % 86400 ∈ defaultSlots :=
  calculateNextSlot_correct defaultSlots 0 120600 (by decide)
    (by simp [defaultSlots, slotSec, List.sorted_cons]) (by decide) (by decide)

/-- C2: FALSIFIED at a concrete input.  Feed of two completed records,
the second carrying the structured `task_id` equal to the target and URL
`urlB`.  Because the first record has a non-empty draft id and the body
contains the target, `extractLinksByTaskID`'s first loop short-circuits
into `extractLinksSmart(body, "")` — whose empty normalized key matches
every completed record — so the poll handler returns BOTH URLs (the
non-matching one first) instead of exactly `urlB`: the exact structured
match is not authoritative. -/
theorem pollResolve_exact_match_preempted :
    (∃ it ∈ ([⟨"i1", "sora_gen_complete", "foo", "d1", "task_A", "urlA"⟩,
              ⟨"i2", "sora_gen_complete", "bar", "d2", "task_B", "urlB"⟩] :
        List MailboxItem),
      it.kind = "sora_gen_complete" ∧ it.draftTaskID = "task_B" ∧
        it.downloadableURL = "urlB") ∧
    pollResolve (fun s => s == "task_B")
      [⟨"i1", "sora_gen_complete", "foo", "d1", "task_A", "urlA"⟩,
       ⟨"i2", "sora_gen_complete", "bar", "d2", "task_B", "urlB"⟩] "task_B"
      = ["urlA", "urlB"] ∧
    pollResolve (fun s => s == "task_B")
      [⟨"i1", "sora_gen_complete", "foo", "d1", "task_A", "urlA"⟩,
       ⟨"i2", "sora_gen_complete", "bar", "d2", "task_B", "urlB"⟩] "task_B"
      ≠ ["urlB"] := by
  decide

/-- C6: with no pre-existing destination file and the HTTP client's
guarantee that at most the declared number of body bytes is delivered, a
file exists at the destination exactly when `downloadFileWithProgress`
returns success, and each failure cause of the claim (non-200 status,
textual/XML content-type, copy error, byte count differing from a
declared content length) leaves no file. -/
theorem downloadFileWithProgress_no_leftover (doErr : Bool) (statusCode : Nat)
    (contentType : String) (contentLength : Int) (createOk : Bool)
    (copyErr : Option String) (copiedBytes : Nat)
    (hsem : 0 ≤ contentLength → copyErr = none → (copiedBytes : Int) ≤ contentLength) :
    ((downloadFileWithProgress doErr statusCode contentType contentLength createOk
        copyErr copiedBytes).2 = true ↔
      (downloadFileWithProgress doErr statusCode contentType contentLength createOk
        copyErr copiedBytes).1 = none) ∧
    (statusCode ≠ 200 →
      (downloadFileWithProgress doErr statusCode contentType contentLength createOk
        copyErr copiedBytes).2 = false) ∧
    ((containsSubstr contentType ("xml") || containsSubstr contentType ("text")) = true →
      (downloadFileWithProgress doErr statusCode contentType contentLength createOk
        copyErr copiedBytes).2 = false) ∧
    (copyErr ≠ none →
      (downloadFileWithProgress doErr statusCode contentType contentLength createOk
        copyErr copiedBytes).2 = false) ∧
    (0 ≤ contentLength → (copiedBytes : Int) ≠ contentLength →
      (downloadFileWithProgress doErr statusCode contentType contentLength createOk
        copyErr copiedBytes).2 = false) := by
  cases copyErr with
  | some e =>
    simp only [downloadFileWithProgress]
    split_ifs <;> simp
  | none =>
    simp only [downloadFileWithProgress]
    split_ifs with h1 h2 h3 h4 h5 <;> simp_all
    · intro hcl
      rcases eq_or_lt_of_le hcl with hz | hpos
      · have h6 := hsem hcl
        omega
      · exact h5 hpos

/-- C6 witness: status 200, binary content-type, declared length 100,
100 bytes copied without error — success and the file exists. -/
theorem downloadFileWithProgress_no_leftover_witness :
    (downloadFileWithProgress false 200 ("video/mp4") 100 true none 100).2 = true ↔
    (downloadFileWithProgress false 200 ("video/mp4") 100 true none 100).1 = none :=
  (downloadFileWithProgress_no_leftover false 200 ("video/mp4") 100 true none 100
    (by intro _ _; decide)).1

/-- C7: when the destination file already exists with more than 1024
bytes and a URL is present, the fetch phase reports the skip outcome,
does not touch the network, leaves the file unchanged — and therefore a
second fetch on the resulting state skips again. -/
theorem fetchPhase_skip_idempotent (dlErr : Option String) (dlFile : Option Nat)
    (url : String) (sz : Nat) (hu : url ≠ "") (hs : 1024 < sz) :
    fetchPhase dlErr dlFile url (some sz) = ("檔案已存在，跳過下載", some sz, false) ∧
    fetchPhase dlErr dlFile url (fetchPhase dlErr dlFile url (some sz)).2.1
      = ("檔案已存在，跳過下載", some sz, false) := by
  simp [fetchPhase, hu, hs]

/-- C7 witness: a 2000-byte existing file is skipped twice. -/
theorem fetchPhase_skip_idempotent_witness :
    fetchPhase none none ("http://u") (some 2000)
      = ("檔案已存在，跳過下載", some 2000, false) ∧
    fetchPhase none none ("http://u") (fetchPhase none none ("http://u") (some 2000)).2.1
      = ("檔案已存在，跳過下載", some 2000, false) :=
  fetchPhase_skip_idempotent none none ("http://u") 2000 (by decide) (by decide)

/-- C10: `loadConfig` always returns a nil error, and returns the empty
collection when the file is missing or its contents do not parse
(`hparse` records that `json.Unmarshal` of empty input fails, leaving
the target slice nil). -/
theorem loadConfig_total (contents : Option String)
    (parse : String → Option (List VideoConfig))
    (hparse : parse ("") = none) :
    (loadConfig contents parse).2 = none ∧
    (contents = none → (loadConfig contents parse).1 = []) ∧
    (∀ s, contents = some s → parse s = none → (loadConfig contents parse).1 = []) := by
  refine ⟨rfl, ?_, ?_⟩
  · rintro rfl
    simp [loadConfig, hparse]
  · rintro s rfl hp
    simp [loadConfig, hp]

/-- C10 witness: missing store file — nil error and empty collection. -/
theorem loadConfig_total_witness :
    (loadConfig none (fun _ => none)).2 = none ∧
    (loadConfig none (fun _ => none)).1 = [] := by
  have h := loadConfig_total none (fun _ => none) rfl
  exact ⟨h.1, h.2.1 rfl⟩

/-- Elements of the upsert result come from the store or are the incoming
item's merge (helper: file names of the result are among the old names
plus the incoming name). -/
theorem upsertVideos_names_subset : ∀ (store : List VideoConfig) (nv : VideoConfig)
    (url : String) (n : String),
    n ∈ (upsertVideos store nv url).map (fun v => v.fileName) →
    n = nv.fileName ∨ n ∈ store.map (fun v => v.fileName)
  | [], nv, url, n => by
    simp [upsertVideos]
  | v :: rest, nv, url, n => by
    by_cases hm : matchCond v nv
    · simp only [upsertVideos, if_pos hm, List.map_cons, List.mem_cons]
      rintro (h | h)
      · refine Or.inl ?_
        rw [h]
        simp only [mergeVideo]
        split <;> split <;> rfl
      · exact Or.inr (Or.inr h)
    · simp only [upsertVideos, if_neg hm, List.map_cons, List.mem_cons]
      rintro (h | h)
      · exact Or.inr (Or.inl h)
      · rcases upsertVideos_names_subset rest nv url n h with h1 | h1
        · exact Or.inl h1
        · exact Or.inr (Or.inr h1)

/-- C8: when some store entry matches the incoming item (by correlation
identifier or by file name), the upsert replaces the FIRST such entry in
place — the store size is unchanged, no entry is appended. -/
theorem upsertVideos_in_place : ∀ (store : List VideoConfig) (nv : VideoConfig)
    (url : String), (∃ v ∈ store, matchCond v nv = true) →
    (upsertVideos store nv url).length = store.length ∧
    ∃ i, ∃ hi : i < store.length,
      matchCond (store.get ⟨i, hi⟩) nv = true ∧
      (∀ j, ∀ hj : j < store.length, j < i → matchCond (store.get ⟨j, hj⟩) nv = false) ∧
      upsertVideos store nv url = store.set i (mergeVideo (store.get ⟨i, hi⟩) nv url)
  | [], nv, url, h => by simp at h
  | v :: rest, nv, url, h => by
    by_cases hm : matchCond v nv = true
    · refine ⟨by simp [upsertVideos, hm], 0, Nat.succ_pos _, hm, ?_, ?_⟩
      · intro j hj hj0
        omega
      · simp [upsertVideos, hm]
    · have h2 : ∃ w ∈ rest, matchCond w nv = true := by
        obtain ⟨w, hw, hmw⟩ := h
        rcases List.mem_cons.mp hw with rfl | hw2
        · exact absurd hmw hm
        · exact ⟨w, hw2, hmw⟩
      obtain ⟨hlen, i, hi, hmi, hfirst, heq⟩ := upsertVideos_in_place rest nv url h2
      refine ⟨by simp [upsertVideos, hm, hlen], i + 1, Nat.succ_lt_succ hi, ?_, ?_, ?_⟩
      · simpa using hmi
      · intro j hj hji
        cases j with
        | zero =>
          simpa using (Bool.not_eq_true _).mp hm
        | succ j' =>
          have hj' : j' < rest.length := by simpa using hj
          have := hfirst j' hj' (by omega)
          simpa using this
      · simp only [upsertVideos, if_neg hm, List.set_cons_succ, List.get_cons_succ]
        rw [heq]

/-- C8 witness: incoming item sharing `fileName` `b.mp4` with the second
of two entries — the store size stays 2. -/
theorem upsertVideos_in_place_witness :
    (upsertVideos
      [⟨"", "a.mp4", "", "", [], "", "", false, none, false, false, ""⟩,
       ⟨"", "b.mp4", "", "", [], "", "", false, none, false, false, ""⟩]
      ⟨"", "b.mp4", "t", "", [], "", "", false, none, false, false, "u"⟩ "").length = 2 :=
  (upsertVideos_in_place
    [⟨"", "a.mp4", "", "", [], "", "", false, none, false, false, ""⟩,
     ⟨"", "b.mp4", "", "", [], "", "", false, none, false, false, ""⟩]
    ⟨"", "b.mp4", "t", "", [], "", "", false, none, false, false, "u"⟩ ""
    (by decide)).1

/-- Accumulated links survive the rest of the smart-match fold. -/
theorem smartStep_foldl_mono : ∀ (items : List MailboxItem) (tid tk : String)
    (acc : List String) (x : String), x ∈ acc →
    x ∈ items.foldl (smartStep tid tk) acc
  | [], _, _, _, _, hx => hx
  | it :: rest, tid, tk, acc, x, hx => by
    simp only [List.foldl_cons]
    apply smartStep_foldl_mono rest tid tk _ x
    simp only [smartStep]
    split
    · exact hx
    · split
      · exact List.mem_append_left _ hx
      · exact hx

/-- The smart-match fold collects the URL of every completed record whose
normalized key matches. -/
theorem extractLinksSmart_collects : ∀ (items : List MailboxItem) (tid tk : String)
    (acc : List String) (it : MailboxItem), it ∈ items →
    it.kind = "sora_gen_complete" → it.downloadableURL ≠ "" →
    (containsSubstr (normalizePrompt it.displayStr) tk = true ∨
      containsSubstr tk (normalizePrompt it.displayStr) = true) →
    it.downloadableURL ∈ items.foldl (smartStep tid tk) acc
  | [], _, _, _, _, hmem, _, _, _ => by simp at hmem
  | j :: rest, tid, tk, acc, it, hmem, hkind, hurl, hnorm => by
    simp only [List.foldl_cons]
    rcases List.mem_cons.mp hmem with rfl | hmem2
    · apply smartStep_foldl_mono
      have hk : ¬(it.kind ≠ "sora_gen_complete") := by simp [hkind]
      simp only [smartStep, if_neg hk]
      rw [if_pos ⟨Or.inr hnorm, hurl⟩]
      exact List.mem_append_right _ (by simp)
    · exact extractLinksSmart_collects rest tid tk _ it hmem2 hkind hurl hnorm

/-- C9: if no record matches the extracted identifier tier and the
normalized target key is a substring of a completed record's normalized
display text (or vice versa), that record's URL is among the fuzzy
matcher's results. -/
theorem extractLinksSmart_fuzzy (targetPrompt : String) (items : List MailboxItem)
    (it : MailboxItem) (hmem : it ∈ items)
    (_hnoid : ∀ j ∈ items,
      ¬(findS2 targetPrompt ≠ "" ∧
        containsSubstr j.displayStr (findS2 targetPrompt) = true))
    (hkind : it.kind = "sora_gen_complete") (hurl : it.downloadableURL ≠ "")
    (hnorm : containsSubstr (normalizePrompt it.displayStr)
        (normalizePrompt targetPrompt) = true ∨
      containsSubstr (normalizePrompt targetPrompt)
        (normalizePrompt it.displayStr) = true) :
    it.downloadableURL ∈ extractLinksSmart targetPrompt items := by
  unfold extractLinksSmart
  exact extractLinksSmart_collects items _ _ [] it hmem hkind hurl hnorm

/-- C9 witness: no record carries an `S2_*` identifier; the normalized
target `Hello, WORLD` is a prefix of the record's normalized display
text, so its URL is returned. -/
theorem extractLinksSmart_fuzzy_witness :
    "urlZ" ∈ extractLinksSmart ("Hello, WORLD")
      [⟨"i1", "sora_gen_complete", "hello world story", "", "", "urlZ"⟩] := by
  have h := extractLinksSmart_fuzzy ("Hello, WORLD")
    [⟨"i1", "sora_gen_complete", "hello world story", "", "", "urlZ"⟩]
    ⟨"i1", "sora_gen_complete", "hello world story", "", "", "urlZ"⟩
    (by decide) (by decide) (by decide) (by decide) (by decide)
  exact h

theorem stepOf_uploaded (slots : List Nat) (now : Nat) (v : VideoConfig) (ct : Nat) :
    (stepOf slots now v ct).1.uploaded = v.uploaded := by
  unfold stepOf
  split
  · split
    · split <;> rfl
    · rfl
  · rfl

theorem uploaded_roundtrip (v : VideoConfig) (h : v.uploaded = false) :
    { { v with uploaded := true } with uploaded := false } = v := by
  cases v
  simp_all

theorem ProcOut_cons (up : VideoConfig → Bool) (v w : VideoConfig)
    (done rest : List VideoConfig) (p p2 p3 : Nat)
    (saves saves2 : List (List VideoConfig)) (fin : List VideoConfig)
    (sv : List (List VideoConfig))
    (hO : ProcOut up (done ++ [w]) rest p2 saves2 fin p3 sv)
    (hsub : ∀ s ∈ saves2, s ∈ saves ∨ (s.length = done.length + 1 + rest.length ∧
        ∀ x, x ∈ done ++ v :: rest → x.uploaded = true → x ∈ s))
    (hcnt : saves2.length + p = saves.length + p2)
    (hpp : p ≤ p2)
    (hkeep : v.uploaded = true → v = w)
    (hw : w.uploaded = true →
      w ∈ done ++ v :: rest ∨ up { w with uploaded := false } = true) :
    ProcOut up done (v :: rest) p saves fin p3 sv := by
  obtain ⟨hlen, hmem, hsaves, hc, hp, honly⟩ := hO
  have hto : ∀ x, x ∈ done ++ v :: rest → x.uploaded = true → x ∈ (done ++ [w]) ++ rest := by
    intro x hx hu
    rcases List.mem_append.mp hx with hx | hx
    · exact List.mem_append_left _ (List.mem_append_left _ hx)
    · rcases List.mem_cons.mp hx with rfl | hx
      · rw [hkeep hu]
        exact List.mem_append_left _ (List.mem_append_right _ (List.mem_cons_self _ _))
      · exact List.mem_append_right _ hx
  have hfrom : ∀ x, x ∈ (done ++ [w]) ++ rest → x ∈ done ∨ x = w ∨ x ∈ rest := by
    intro x hx
    rcases List.mem_append.mp hx with hx | hx
    · rcases List.mem_append.mp hx with hx | hx
      · exact Or.inl hx
      · exact Or.inr (Or.inl (List.mem_singleton.mp hx))
    · exact Or.inr (Or.inr hx)
  have hlw : (done ++ [w]).length = done.length + 1 := by simp
  refine ⟨?_, ?_, ?_, ?_, ?_, ?_⟩
  · rw [hlen, hlw, List.length_cons]
    omega
  · intro x hx hu
    exact hmem x (hto x hx hu) hu
  · intro s hs
    rcases hsaves s hs with h1 | ⟨hl, hprop⟩
    · rcases hsub s h1 with h2 | ⟨h3, h4⟩
      · exact Or.inl h2
      · refine Or.inr ⟨?_, h4⟩
        rw [h3, List.length_cons]
        omega
    · refine Or.inr ⟨?_, ?_⟩
      · rw [hl, hlw, List.length_cons]
        omega
      · intro x hx hu
        exact hprop x (hto x hx hu) hu
  · omega
  · exact hpp.trans hp
  · intro x hx hu
    rcases honly x hx hu with h1 | h1
    · rcases hfrom x h1 with h2 | h2 | h2
      · exact Or.inl (List.mem_append_left _ h2)
      · subst h2
        exact hw hu
      · exact Or.inl (List.mem_append_right _ (List.mem_cons_of_mem _ h2))
    · exact Or.inr h1

theorem procLoop_master (slots : List Nat) (fe : String → Bool) (up : VideoConfig → Bool)
    (now limit : Nat) :
    ∀ (rest done : List VideoConfig) (ct p : Nat) (saves : List (List VideoConfig))
      (fin : List VideoConfig) (p3 : Nat) (sv : List (List VideoConfig)),
      procLoop slots fe up now limit done rest ct p saves = (fin, p3, sv) →
      ProcOut up done rest p saves fin p3 sv
  | [], done, ct, p, saves, fin, p3, sv, h => by
    simp only [procLoop] at h
    rw [Prod.mk.injEq, Prod.mk.injEq] at h
    obtain ⟨h1, h2, h3⟩ := h
    subst h1
    subst h2
    subst h3
    refine ⟨by simp, ?_, fun s hs => Or.inl hs, by omega, le_refl p, ?_⟩
    · intro v hv _
      simpa using hv
    · intro v hv _
      exact Or.inl (by simpa using hv)
  | v :: rest, done, ct, p, saves, fin, p3, sv, h => by
    simp only [procLoop] at h
    split_ifs at h with hlim hupl hfe hup
    · rw [Prod.mk.injEq, Prod.mk.injEq] at h
      obtain ⟨h1, h2, h3⟩ := h
      subst h1
      subst h2
      subst h3
      exact ⟨by simp, fun x hx _ => hx, fun s hs => Or.inl hs, by omega, le_refl p,
        fun x hx _ => Or.inl hx⟩
    · have hO := procLoop_master slots fe up now limit rest (done ++ [v]) ct p saves fin p3 sv h
      refine ProcOut_cons up v v done rest p p p3 saves saves fin sv hO
        (fun s hs => Or.inl hs) rfl (le_refl p) (fun _ => rfl) ?_
      intro _
      exact Or.inl (List.mem_append_right _ (List.mem_cons_self _ _))
    · have hO := procLoop_master slots fe up now limit rest (done ++ [v]) ct p saves fin p3 sv h
      refine ProcOut_cons up v v done rest p p p3 saves saves fin sv hO
        (fun s hs => Or.inl hs) rfl (le_refl p) (fun _ => rfl) ?_
      intro _
      exact Or.inl (List.mem_append_right _ (List.mem_cons_self _ _))
    · -- successful upload
      have hvu : v.uploaded = false := by
        revert hupl
        cases v.uploaded <;> simp
      have hwu : (stepOf slots now v ct).1.uploaded = false :=
        (stepOf_uploaded slots now v ct).trans hvu
      have hO := procLoop_master slots fe up now limit rest
        (done ++ [{ (stepOf slots now v ct).1 with uploaded := true }])
        (stepOf slots now v ct).2 (p + 1)
        (saves ++ [done ++ { (stepOf slots now v ct).1 with uploaded := true } :: rest])
        fin p3 sv h
      refine ProcOut_cons up v ({ (stepOf slots now v ct).1 with uploaded := true })
        done rest p (p + 1) p3 saves _ fin sv hO ?_
        (by simp only [List.length_append, List.length_cons, List.length_nil]; omega)
        (Nat.le_succ p) (fun hu => absurd hu hupl) ?_
      · intro s hs
        rcases List.mem_append.mp hs with hs | hs
        · exact Or.inl hs
        · refine Or.inr ⟨?_, ?_⟩
          · rw [List.mem_singleton.mp hs]
            simp only [List.length_append, List.length_cons]
            omega
          · intro x hx hu
            rw [List.mem_singleton.mp hs]
            rcases List.mem_append.mp hx with hx | hx
            · exact List.mem_append_left _ hx
            · rcases List.mem_cons.mp hx with rfl | hx
              · exact absurd hu hupl
              · exact List.mem_append_right _ (List.mem_cons_of_mem _ hx)
      · intro _
        rw [uploaded_roundtrip _ hwu]
        exact Or.inr hup
    · -- failed upload
      have hvu : v.uploaded = false := by
        revert hupl
        cases v.uploaded <;> simp
      have hwu : (stepOf slots now v ct).1.uploaded = false :=
        (stepOf_uploaded slots now v ct).trans hvu
      have hO := procLoop_master slots fe up now limit rest
        (done ++ [(stepOf slots now v ct).1]) (stepOf slots now v ct).2 p saves fin p3 sv h
      refine ProcOut_cons up v ((stepOf slots now v ct).1) done rest p p p3 saves saves
        fin sv hO (fun s hs => Or.inl hs) rfl (le_refl p)
        (fun hu => absurd hu hupl) ?_
      intro hu
      rw [hwu] at hu
      exact absurd hu (by simp)

/-- C4 (amended): uploaded items ARE terminal for the batch orchestrator —
a `processScheduleAndUpload` run keeps the store size and every item that
entered with `uploaded = true` survives unchanged in the final store and
in every persisted snapshot.  (The operator manual-schedule request and
the download-handler upsert do reset `uploaded`; see the
counterexample.) -/
theorem processScheduleAndUpload_uploaded_terminal (slots : List Nat) (fe : String → Bool)
    (up : VideoConfig → Bool) (now : Nat) (videos : List VideoConfig) (extLast : Nat)
    (startDate : Option Nat) (limit : Nat) :
    (processScheduleAndUpload slots fe up now videos extLast startDate limit).1.length
      = videos.length ∧
    ∀ v ∈ videos, v.uploaded = true →
      v ∈ (processScheduleAndUpload slots fe up now videos extLast startDate limit).1 ∧
      ∀ s ∈ (processScheduleAndUpload slots fe up now videos extLast startDate limit).2.2,
        v ∈ s := by
  have heq : procLoop slots fe up now limit [] videos
      (initialClock slots now videos extLast startDate) 0 []
      = ((processScheduleAndUpload slots fe up now videos extLast startDate limit).1,
         (processScheduleAndUpload slots fe up now videos extLast startDate limit).2.1,
         (processScheduleAndUpload slots fe up now videos extLast startDate limit).2.2) := rfl
  have hm := procLoop_master slots fe up now limit videos []
    (initialClock slots now videos extLast startDate) 0 [] _ _ _ heq
  unfold ProcOut at hm
  obtain ⟨h1, h2, h3, _, _, _⟩ := hm
  constructor
  · simpa using h1
  · intro v hv hu
    refine ⟨h2 v (by simpa using hv) hu, ?_⟩
    intro s hs
    rcases h3 s hs with h | ⟨_, hprop⟩
    · exact absurd h (List.not_mem_nil s)
    · exact hprop v (by simpa using hv) hu

/-- C4 witness: a store whose single item is already uploaded passes
through a batch run untouched. -/
theorem processScheduleAndUpload_uploaded_terminal_witness :
    (⟨"", "u.mp4", "", "", [], "", "", true, none, false, false, ""⟩ : VideoConfig) ∈
      (processScheduleAndUpload defaultSlots (fun _ => true) (fun _ => true) 0
        [⟨"", "u.mp4", "", "", [], "", "", true, none, false, false, ""⟩] 86400 none 2).1 :=
  ((processScheduleAndUpload_uploaded_terminal defaultSlots (fun _ => true) (fun _ => true) 0
    [⟨"", "u.mp4", "", "", [], "", "", true, none, false, false, ""⟩] 86400 none 2).2
    ⟨"", "u.mp4", "", "", [], "", "", true, none, false, false, ""⟩
    (by decide) (by decide)).1

/-- C4: FALSIFIED for the operator manual-schedule request — on a store
whose only item is already uploaded, `handleManualSchedule` rewrites the
item with `uploaded = false` (and a new publish time) and persists that
snapshot, so `uploaded = true` is not terminal across engine
operations. -/
theorem handleManualSchedule_resets_uploaded :
    ((⟨"", "x.mp4", "", "", [], "", "", true, none, false, false, ""⟩ : VideoConfig).uploaded
        = true) ∧
    handleManualSchedule (fun _ => false) (fun _ => false)
        [⟨"", "x.mp4", "", "", [], "", "", true, none, false, false, ""⟩] ("x.mp4") 100 true
      = some ([⟨"", "x.mp4", "", "", [], "", "", false, some 100, true, false, ""⟩],
          [[⟨"", "x.mp4", "", "", [], "", "", false, some 100, true, false, ""⟩]]) := by
  decide

/-- C3 (amended): when the hosting upload fails for an item the item is
left with `uploaded = false` and the run continues (the final store keeps
its size, uploads are only recorded for items the upload oracle
accepted, and exactly one snapshot is persisted per success — none for
the failure itself).  However, the `publishAt` assigned to a failed item
before its upload attempt stays in the in-memory store, so it IS
committed by the save of a later successful item (see the
counterexample). -/
theorem processScheduleAndUpload_failure_isolated (slots : List Nat) (fe : String → Bool)
    (up : VideoConfig → Bool) (now : Nat) (videos : List VideoConfig) (extLast : Nat)
    (startDate : Option Nat) (limit : Nat) :
    (processScheduleAndUpload slots fe up now videos extLast startDate limit).1.length
      = videos.length ∧
    (processScheduleAndUpload slots fe up now videos extLast startDate limit).2.2.length
      = (processScheduleAndUpload slots fe up now videos extLast startDate limit).2.1 ∧
    ∀ v ∈ (processScheduleAndUpload slots fe up now videos extLast startDate limit).1,
      v.uploaded = true →
        v ∈ videos ∨ up { v with uploaded := false } = true := by
  have heq : procLoop slots fe up now limit [] videos
      (initialClock slots now videos extLast startDate) 0 []
      = ((processScheduleAndUpload slots fe up now videos extLast startDate limit).1,
         (processScheduleAndUpload slots fe up now videos extLast startDate limit).2.1,
         (processScheduleAndUpload slots fe up now videos extLast startDate limit).2.2) := rfl
  have hm := procLoop_master slots fe up now limit videos []
    (initialClock slots now videos extLast startDate) 0 [] _ _ _ heq
  unfold ProcOut at hm
  obtain ⟨h1, _, _, h4, _, h6⟩ := hm
  refine ⟨by simpa using h1, by simpa using h4, ?_⟩
  intro v hv hu
  rcases h6 v hv hu with h | h
  · exact Or.inl (by simpa using h)
  · exact Or.inr h

/-- C3 witness: in the two-item run where the first upload fails and the
second succeeds, the successfully uploaded second item is accounted for
by the upload oracle. -/
theorem processScheduleAndUpload_failure_isolated_witness :
    (⟨"", "b.mp4", "", "", [], "", "", true, some 129600, false, false, ""⟩ : VideoConfig)
        ∈ ([⟨"", "a.mp4", "", "", [], "", "", false, none, false, false, ""⟩,
            ⟨"", "b.mp4", "", "", [], "", "", false, none, false, false, ""⟩] :
            List VideoConfig) ∨
      (fun v => v.fileName == "b.mp4")
        { (⟨"", "b.mp4", "", "", [], "", "", true, some 129600, false, false, ""⟩ : VideoConfig)
          with uploaded := false } = true :=
  (processScheduleAndUpload_failure_isolated defaultSlots (fun _ => true)
    (fun v => v.fileName == "b.mp4") 0
    [⟨"", "a.mp4", "", "", [], "", "", false, none, false, false, ""⟩,
     ⟨"", "b.mp4", "", "", [], "", "", false, none, false, false, ""⟩] 86400 none 2).2.2
    ⟨"", "b.mp4", "", "", [], "", "", true, some 129600, false, false, ""⟩
    (by decide) (by decide)

/-- C3: FALSIFIED as stated — in a run over two pending items where the
upload of `a.mp4` fails and the upload of `b.mp4` succeeds, the
`saveConfig` triggered by the success persists the whole store,
including the failed item with the `publishAt` (115200 = day-1 08:00)
assigned to it during the run: a partial mutation of the failed item IS
committed. -/
theorem processScheduleAndUpload_commits_failed_mutation :
    ((fun v => v.fileName == "b.mp4")
        (⟨"", "a.mp4", "", "", [], "", "", false, some 115200, false, false, ""⟩ :
          VideoConfig) = false) ∧
    (∃ s ∈ (processScheduleAndUpload defaultSlots (fun _ => true)
        (fun v => v.fileName == "b.mp4") 0
        [⟨"", "a.mp4", "", "", [], "", "", false, none, false, false, ""⟩,
         ⟨"", "b.mp4", "", "", [], "", "", false, none, false, false, ""⟩] 86400 none 2).2.2,
      (⟨"", "a.mp4", "", "", [], "", "", false, some 115200, false, false, ""⟩ : VideoConfig)
        ∈ s) := by
  decide

theorem mergeVideo_fileName (v nv : VideoConfig) (url : String) :
    (mergeVideo v nv url).fileName = nv.fileName := by
  simp only [mergeVideo]
  split <;> split <;> rfl

theorem matchCond_of_fileName (v nv : VideoConfig) (h : v.fileName = nv.fileName) :
    matchCond v nv = true := by
  simp [matchCond, h]

/-- Upsert part of the C5 amendment: the upsert preserves file-name
uniqueness provided every matching entry already bears the incoming file
name (fresh appends are automatically safe because a shared file name
would itself be a match). -/
theorem upsertVideos_nodup : ∀ (store : List VideoConfig) (nv : VideoConfig) (url : String),
    ((store.map (fun v => v.fileName)).Nodup) →
    (∀ v ∈ store, matchCond v nv = true → v.fileName = nv.fileName) →
    ((upsertVideos store nv url).map (fun v => v.fileName)).Nodup
  | [], nv, url, _, _ => by simp [upsertVideos]
  | v :: rest, nv, url, hN, hH => by
    rw [List.map_cons, List.nodup_cons] at hN
    by_cases hm : matchCond v nv = true
    · have hfe : v.fileName = nv.fileName := hH v (List.mem_cons_self v rest) hm
      simp only [upsertVideos, if_pos hm, List.map_cons, mergeVideo_fileName,
        List.nodup_cons, ← hfe]
      exact hN
    · have hne : v.fileName ≠ nv.fileName := fun he => hm (matchCond_of_fileName v nv he)
      simp only [upsertVideos, if_neg hm, List.map_cons, List.nodup_cons]
      constructor
      · intro hmem
        rcases upsertVideos_names_subset rest nv url v.fileName hmem with h1 | h1
        · exact hne h1
        · exact hN.1 h1
      · exact upsertVideos_nodup rest nv url hN.2
          (fun w hw hmw => hH w (List.mem_cons_of_mem v hw) hmw)

theorem isPrefixList_append (p : List Char) : ∀ (l t : List Char),
    isPrefixList p l = true → isPrefixList p (l ++ t) = true := by
  induction p with
  | nil => intro l t _; rfl
  | cons a as ih =>
    intro l t h
    cases l with
    | nil => simp [isPrefixList] at h
    | cons b bs =>
      simp only [isPrefixList, Bool.and_eq_true] at h ⊢
      exact ⟨h.1, ih bs t h.2⟩

theorem s2_sora_incompat (l : List Char) :
    isPrefixList ['S', '2', '_'] l = true →
    isPrefixList ['s', 'o', 'r', 'a', '_'] l = true → False := by
  cases l with
  | nil => intro h _; simp [isPrefixList] at h
  | cons c cs =>
    intro h1 h2
    simp only [isPrefixList, Bool.and_eq_true, beq_iff_eq] at h1 h2
    rw [← h1.1] at h2
    exact absurd h2.1 (by decide)

theorem string_append_right_cancel (a b c : String) (h : a ++ c = b ++ c) : a = b := by
  have hd : a.data ++ c.data = b.data ++ c.data := by
    rw [← String.data_append, ← String.data_append, h]
  exact String.ext (List.append_cancel_right hd)

theorem setURL_map_fileName : ∀ (vs : List VideoConfig) (i : Nat) (url : String),
    (setURL vs i url).map (fun v => v.fileName) = vs.map (fun v => v.fileName)
  | [], _, _ => rfl
  | v :: rest, 0, url => by simp [setURL]
  | v :: rest, i + 1, url => by
    simp only [setURL, List.map_cons]
    rw [setURL_map_fileName rest i url]

theorem matchS2At_startsS2 : ∀ (l m : List Char), matchS2At l = some m →
    isPrefixList ['S', '2', '_'] m = true := by
  intro l m h
  unfold matchS2At at h
  split at h
  · rw [Option.map_eq_some'] at h
    obtain ⟨b, _, rfl⟩ := h
    simp [isPrefixList]
  · exact absurd h (by simp)

theorem findS2Aux_startsS2 : ∀ (l m : List Char), findS2Aux l = some m →
    isPrefixList ['S', '2', '_'] m = true
  | [], m, h => by simp [findS2Aux] at h
  | c :: rest, m, h => by
    unfold findS2Aux at h
    split at h
    · rename_i m1 hm1
      have hmm : m1 = m := by injection h
      subst hmm
      exact matchS2At_startsS2 (c :: rest) m1 hm1
    · exact findS2Aux_startsS2 rest m h

theorem findS2_startsS2 (s : String) (h : findS2 s ≠ "") :
    isPrefixList ['S', '2', '_'] (findS2 s).data = true := by
  unfold findS2 at h ⊢
  cases hfa : findS2Aux s.data with
  | none => exact absurd (by rw [hfa]) h
  | some m => exact findS2Aux_startsS2 s.data m hfa

theorem initIdxAux_no_detached : ∀ (vs : List VideoConfig) (i : Nat)
    (m : String → Option (Option Nat)),
    (∀ s, m s ≠ some none) → ∀ s, initIdxAux vs i m s ≠ some none
  | [], _, m, hm, s => hm s
  | v :: rest, i, m, hm, s => by
    apply initIdxAux_no_detached rest (i + 1)
    intro s1
    by_cases hid : v.uniqueID = ""
    · simp only [if_pos hid]
      exact hm s1
    · simp only [if_neg hid, mapInsert]
      split
      · simp
      · exact hm s1

theorem initIdx_no_detached (lv : List VideoConfig) (s : String) :
    initIdx lv s ≠ some none :=
  initIdxAux_no_detached lv 0 (fun _ => none) (fun _ => by simp) s

theorem syncStep_inv (initNames : List String) (st : SyncState) (item : MailboxItem)
    (hitem : findS2 item.displayStr ≠ "" →
      (findS2 item.displayStr) ++ ".mp4" ∉ initNames)
    (hinv : SyncInv initNames st) :
    SyncInv initNames (syncStep st item) := by
  obtain ⟨vids, kn, ix, sy⟩ := st
  obtain ⟨hN, hK, hV, hD⟩ := hinv
  dsimp only at hN hK hV hD
  simp only [syncStep]
  split
  · split
    · exact ⟨hN, hK, hV, hD⟩
    · rename_i uuid huuid
      split
      · rename_i hfid
        split
        · rename_i i hix
          refine ⟨?_, hK, ?_, hD⟩
          · simpa only [setURL_map_fileName] using hN
          · intro n hn
            rw [setURL_map_fileName] at hn
            exact hV n hn
        · exact ⟨hN, hK, hV, hD⟩
        · rename_i hix
          have hs2 : isPrefixList ['S', '2', '_']
              ((findS2 item.displayStr) ++ ".mp4").data = true := by
            rw [String.data_append]
            exact isPrefixList_append _ _ _ (findS2_startsS2 item.displayStr hfid)
          have hfresh : (findS2 item.displayStr) ++ ".mp4" ∉
              vids.map (fun v => v.fileName) := by
            intro hmem
            rcases hV _ hmem with hk | ⟨fid2, h2, he⟩
            · rcases hK _ hk with hin | hsora
              · exact hitem hfid hin
              · exact s2_sora_incompat _ hs2 hsora
            · have hff : findS2 item.displayStr = fid2 :=
                string_append_right_cancel _ _ _ he
              rw [← hff] at h2
              rw [h2] at hix
              exact absurd hix (by simp)
          refine ⟨?_, hK, ?_, ?_⟩
          · rw [List.map_append]
            rw [List.nodup_append]
            refine ⟨hN, by simp, ?_⟩
            intro a ha hax
            rw [List.mem_singleton.mp hax] at ha
            exact hfresh ha
          · intro n hn
            rw [List.map_append] at hn
            rcases List.mem_append.mp hn with hn | hn
            · rcases hV n hn with hk | ⟨fid2, h2, he⟩
              · exact Or.inl hk
              · refine Or.inr ⟨fid2, ?_, he⟩
                simp only [mapInsert]
                split <;> simp [h2]
            · refine Or.inr ⟨findS2 item.displayStr, ?_, List.mem_singleton.mp hn⟩
              simp [mapInsert]
          · intro fid2 h2
            simp only [mapInsert] at h2
            split at h2
            · rename_i hff
              rw [hff]
              exact findS2_startsS2 item.displayStr hfid
            · exact hD fid2 h2
      · split
        · exact ⟨hN, hK, hV, hD⟩
        · rename_i htf
          have hsora : isPrefixList ['s', 'o', 'r', 'a', '_']
              ("sora_" ++ uuid ++ ".mp4").data = true := by
            rw [String.data_append, String.data_append]
            exact isPrefixList_append _ _ _ (isPrefixList_append _ _ _ (by decide))
          have hfresh : ("sora_" ++ uuid ++ ".mp4") ∉ vids.map (fun v => v.fileName) := by
            intro hmem
            rcases hV _ hmem with hk | ⟨fid2, h2, he⟩
            · exact htf hk
            · have hs2 : isPrefixList ['S', '2', '_']
                  ("sora_" ++ uuid ++ ".mp4").data = true := by
                rw [he, String.data_append]
                exact isPrefixList_append _ _ _ (hD fid2 h2)
              exact s2_sora_incompat _ hs2 hsora
          refine ⟨?_, ?_, ?_, hD⟩
          · rw [List.map_append]
            rw [List.nodup_append]
            refine ⟨hN, by simp, ?_⟩
            intro a ha hax
            rw [List.mem_singleton.mp hax] at ha
            exact hfresh ha
          · intro n hn
            rcases List.mem_append.mp hn with hn | hn
            · exact hK n hn
            · exact Or.inr (by rw [List.mem_singleton.mp hn]; exact hsora)
          · intro n hn
            rw [List.map_append] at hn
            rcases List.mem_append.mp hn with hn | hn
            · rcases hV n hn with hk | he
              · exact Or.inl (List.mem_append_left _ hk)
              · exact Or.inr he
            · exact Or.inl (List.mem_append_right _ hn)
  · exact ⟨hN, hK, hV, hD⟩

theorem syncFold_inv : ∀ (items : List MailboxItem) (initNames : List String)
    (st : SyncState),
    (∀ it ∈ items, findS2 it.displayStr ≠ "" →
      (findS2 it.displayStr) ++ ".mp4" ∉ initNames) →
    SyncInv initNames st → SyncInv initNames (items.foldl syncStep st)
  | [], _, _, _, hinv => hinv
  | it :: rest, initNames, st, hit, hinv => by
    simp only [List.foldl_cons]
    exact syncFold_inv rest initNames _ (fun j hj => hit j (List.mem_cons_of_mem it hj))
      (syncStep_inv initNames st it (hit it (List.mem_cons_self it rest)) hinv)

/-- C5 (amended): `fileName` uniqueness is preserved by the
download-handler upsert provided every entry matching the incoming item
(by correlation id or file name) already bears the incoming file name,
and by the history-batch sync provided no extracted `S2_*` identifier
derives a file name already present in the store.  Without these
provisos both operations can duplicate a file name (see the
counterexample for the sync's identifier branch). -/
theorem fileName_unique_preserved :
    (∀ (store : List VideoConfig) (nv : VideoConfig) (url : String),
      ((store.map (fun v => v.fileName)).Nodup) →
      (∀ v ∈ store, matchCond v nv = true → v.fileName = nv.fileName) →
      ((upsertVideos store nv url).map (fun v => v.fileName)).Nodup) ∧
    (∀ (items : List MailboxItem) (localVideos : List VideoConfig),
      ((localVideos.map (fun v => v.fileName)).Nodup) →
      (∀ it ∈ items, findS2 it.displayStr ≠ "" →
        (findS2 it.displayStr) ++ ".mp4" ∉ localVideos.map (fun v => v.fileName)) →
      (((handleSoraHistoryBatch items localVideos).1.map (fun v => v.fileName)).Nodup)) := by
  constructor
  · exact upsertVideos_nodup
  · intro items lv hN hH
    have h0 : SyncInv (lv.map (fun v => v.fileName))
        ⟨lv, lv.map (fun v => v.fileName), initIdx lv, 0⟩ := by
      refine ⟨hN, fun n hn => Or.inl hn, fun n hn => Or.inl hn, ?_⟩
      intro fid hfid
      exact absurd hfid (initIdx_no_detached lv fid)
    exact (syncFold_inv items _ _ hH h0).1

/-- C5 witness: an upsert replacing a matched entry and a sync appending
a fresh `S2_*` item both keep the store's file names duplicate-free. -/
theorem fileName_unique_preserved_witness :
    ((upsertVideos
        [⟨"", "a.mp4", "", "", [], "", "", false, none, false, false, ""⟩]
        ⟨"", "a.mp4", "t", "", [], "", "", false, none, false, false, "u"⟩
        "").map (fun v => v.fileName)).Nodup ∧
    (((handleSoraHistoryBatch
        [⟨"i", "sora_gen_complete", "S2_9_9_9", "", "", "https://h/files/zzz/dl.mp4"⟩]
        [⟨"", "other.mp4", "", "", [], "", "", false, none, false, false, ""⟩]).1.map
        (fun v => v.fileName)).Nodup) :=
  ⟨fileName_unique_preserved.1
      [⟨"", "a.mp4", "", "", [], "", "", false, none, false, false, ""⟩]
      ⟨"", "a.mp4", "t", "", [], "", "", false, none, false, false, "u"⟩
      "" (by decide) (by decide),
    fileName_unique_preserved.2
      [⟨"i", "sora_gen_complete", "S2_9_9_9", "", "", "https://h/files/zzz/dl.mp4"⟩]
      [⟨"", "other.mp4", "", "", [], "", "", false, none, false, false, ""⟩]
      (by decide) (by decide)⟩

/-- C5: FALSIFIED as stated — a store whose single entry is named
`S2_1_1_1.mp4` but carries no `UniqueID`, synced against a feed item
whose display text yields the identifier `S2_1_1_1`, gains a SECOND
entry with the same file name: the identifier branch of
`handleSoraHistoryBatch` appends without consulting the known-names
set. -/
theorem handleSoraHistoryBatch_duplicates_fileName :
    ((([⟨"", "S2_1_1_1.mp4", "", "", [], "", "", false, none, false, false, ""⟩] :
        List VideoConfig).map (fun v => v.fileName)).Nodup) ∧
    ¬ (((handleSoraHistoryBatch
        [⟨"i", "sora_gen_complete", "S2_1_1_1", "", "", "https://h/files/abc/dl.mp4"⟩]
        [⟨"", "S2_1_1_1.mp4", "", "", [], "", "", false, none, false, false, ""⟩]).1.map
        (fun v => v.fileName)).Nodup) := by
  decide
